import Mathlib

/-!
Verification development for the DropRateQuery browser-side lookup tool.
The definitions below are a shallow embedding of the search/index/cache
core in `src/js/stditem.js`; strings are Lean `String`s, JS `Map`s are
insertion-ordered association lists, and DOM document fragments are
modelled by an explicit heap (a list of fragment contents indexed by
allocation order) so that the move semantics of `appendChild` on a
`DocumentFragment` is visible.
-/

set_option maxRecDepth 4000

/-- The double-quote character, written via its code point. -/
def dquote : Char := Char.ofNat 34

/-- The single-quote character, written via its code point. -/
def squote : Char := Char.ofNat 39

/-- Embedding of the per-character escaping performed by `sanitizeInput`
(stditem.js lines 20-33): each of the five HTML-significant characters is
replaced by its entity, every other character is left unchanged. -/
def escapeChar (c : Char) : String :=
  if c = '<' then "&lt;"
  else if c = '>' then "&gt;"
  else if c = '&' then "&amp;"
  else if c = dquote then "&quot;"
  else if c = squote then "&#x27;"
  else String.mk [c]

/-- Character-list worker for `sanitizeInput`: the regex replace visits each
character left to right and substitutes its escape. -/
def sanitizeChars : List Char → List Char
  | [] => []
  | c :: rest => (escapeChar c).data ++ sanitizeChars rest

/-- Embedding of `sanitizeInput` (stditem.js lines 20-33) on string inputs.
(The JS function maps non-string inputs to the empty string; only string
inputs reach the core logic modelled here.) -/
def sanitizeInput (s : String) : String := String.mk (sanitizeChars s.data)

/-- JS `String.prototype.toLowerCase`, modelled per character. -/
def jsToLower (s : String) : String := String.mk (s.data.map Char.toLower)

/-- Generic greedy subsequence scan: walk the haystack once, advancing in the
needle whenever the current characters agree. -/
def greedy {α : Type} [DecidableEq α] : List α → List α → Bool
  | _, [] => true
  | [], _ :: _ => false
  | h :: hs, n :: ns => if h = n then greedy hs ns else greedy hs (n :: ns)

/-- The loop of `matchesFuzzily` (stditem.js lines 86-93): both indices start
at 0; on a case-insensitive character match the needle index advances; the
haystack index always advances. -/
def fuzzyLoop : List Char → List Char → Bool
  | _, [] => true
  | [], _ :: _ => false
  | h :: hs, n :: ns =>
      if h.toLower = n.toLower then fuzzyLoop hs ns else fuzzyLoop hs (n :: ns)

/-- Embedding of `matchesFuzzily` (stditem.js lines 78-97): the guard
`if (!needle || !haystack) return !needle` returns `true` for an empty
needle and `false` for an empty haystack with a non-empty needle; otherwise
the greedy scan decides. -/
def matchesFuzzily (haystack needle : String) : Bool :=
  match needle.data, haystack.data with
  | [], _ => true
  | _ :: _, [] => false
  | n :: ns, h :: hs => fuzzyLoop (h :: hs) (n :: ns)

/-- Leading decimal-digit prefix of a character list, as JS `parseInt` with
radix 10 reads it: `none` when there is no digit at all (JS `NaN`). -/
def digitsValue (cs : List Char) : Option Nat :=
  let ds := cs.takeWhile Char.isDigit
  if ds = [] then none
  else some (ds.foldl (fun a c => a * 10 + (c.toNat - 48)) 0)

/-- Embedding of JS `parseInt(s, 10)`: skip leading whitespace, read an
optional sign, then the longest digit prefix; `none` models `NaN`. -/
def jsParseInt (s : String) : Option Int :=
  let cs := s.data.dropWhile Char.isWhitespace
  match cs with
  | '-' :: rest => (digitsValue rest).map (fun n => -(n : Int))
  | '+' :: rest => (digitsValue rest).map (fun n => (n : Int))
  | _ => (digitsValue cs).map (fun n => (n : Int))

/-- Worker for `jsSplitComma`: accumulates the current segment (reversed). -/
def splitCommaAux : List Char → List Char → List String
  | [], acc => [String.mk acc.reverse]
  | c :: rest, acc =>
      if c = ',' then String.mk acc.reverse :: splitCommaAux rest []
      else splitCommaAux rest (c :: acc)

/-- JS `s.split(",")` for a one-character separator: empty segments from
leading, trailing or doubled commas are kept as empty strings. -/
def jsSplitComma (s : String) : List String := splitCommaAux s.data []

/-- JS array indexing `target[id]` on a possibly negative computed index:
negative or out-of-range indices yield `undefined`, modelled as `none`. -/
def listGetInt {α : Type} (target : List α) (i : Int) : Option α :=
  if 0 ≤ i then target.get? i.toNat else none

/-- Embedding of the relation-resolution pattern of `getMonByWp`
(stditem.js lines 492-521, likewise the npc/map blocks): the `"-1"`
sentinel short-circuits to no rows; otherwise the field is split on commas
and each segment is skipped when empty, when `parseInt` yields `NaN`, or
when the id does not index into the target collection. -/
def resolveRefs {α : Type} (refs : String) (target : List α) : List α :=
  if refs = "-1" then []
  else (jsSplitComma refs).filterMap fun seg =>
    if seg = "" then none
    else match jsParseInt seg with
      | some id => listGetInt target id
      | none => none

/-- The ids mentioned by a refs field, in left-to-right order, after the
segment-level skipping (empty or non-numeric segments dropped). -/
def refIds (refs : String) : List Int :=
  (jsSplitComma refs).filterMap fun seg =>
    if seg = "" then none else jsParseInt seg

/-- A row of `Stdlist`: the fields the search/drill-down core reads. -/
structure Item where
  name : String
  mon : String
  npc : String
deriving DecidableEq, Repr

/-- The data a rendered result `div` carries (stditem.js lines 352-363):
class `hove`, the `listId` attribute, the `monId` attribute (`item.mon`,
with `|| ''` a no-op on strings), and the text `${i + 1}、${item.name}`. -/
structure ItemDiv where
  listId : Nat
  monId : String
  text : String
deriving DecidableEq, Repr

/-- Build the result `div` for row `i` of the collection. -/
def mkItemDiv (i : Nat) (item : Item) : ItemDiv :=
  { listId := i, monId := item.mon, text := toString (i + 1) ++ "、" ++ item.name }

/-- Contents of the `#equList` container: either a plain message string
(set via `.html(...)`) or a list of result divs. -/
inductive EquContent where
  | msg (s : String)
  | items (divs : List ItemDiv)
deriving DecidableEq, Repr

/-- The by-name index built by `initializeIndex`: an insertion-ordered map
from lowercased item name to the row indices bearing that name. -/
abbrev ByName := List (String × List Nat)

/-- Append row `i` to the bucket of `key`, creating the bucket at the end
on first occurrence (JS `Map` insertion order). -/
def byNameInsert (m : ByName) (key : String) (i : Nat) : ByName :=
  match m with
  | [] => [(key, [i])]
  | (k, is) :: rest =>
      if k = key then (k, is ++ [i]) :: rest else (k, is) :: byNameInsert rest key i

/-- Embedding of the `byName` part of `initializeIndex` (stditem.js lines
148-195): rows with a non-empty name are indexed under their lowercased
name in row order. -/
def buildByName (stdlist : List Item) : ByName :=
  stdlist.enum.foldl
    (fun m p => if p.2.name = "" then m else byNameInsert m (jsToLower p.2.name) p.1) []

/-- JS `Map.prototype.get` on an insertion-ordered association list. -/
def jsMapGet (m : List (String × Nat)) (k : String) : Option Nat :=
  match m with
  | [] => none
  | (k9, v) :: rest => if k9 = k then some v else jsMapGet rest k

/-- JS `Map.prototype.set`: update in place when the key is present,
otherwise append at the end (insertion order). -/
def jsMapSet (m : List (String × Nat)) (k : String) (v : Nat) : List (String × Nat) :=
  match m with
  | [] => [(k, v)]
  | (k9, v9) :: rest =>
      if k9 = k then (k9, v) :: rest else (k9, v9) :: jsMapSet rest k v

/-- Embedding of the cache store step (stditem.js lines 432-440): when the
cache already holds `MAX_CACHE_SIZE = 50` or more entries, the entry under
the first (oldest-inserted) key is deleted, then the new entry is set. -/
def cacheStore (m : List (String × Nat)) (k : String) (v : Nat) : List (String × Nat) :=
  jsMapSet (if 50 ≤ m.length then m.tail else m) k v

/-- The display filter on item rows (stditem.js lines 350, 383, 411):
keep the row when it has related monsters or related NPCs. -/
def displayOk (item : Item) : Bool := decide (item.mon ≠ "-1") || decide (item.npc ≠ "-1")

/-- The composite cache key (stditem.js line 324):
`fuzzy_${keyword}_${Stdlist.length}`. -/
def mkCacheKey (keyword : String) (len : Nat) : String :=
  "fuzzy_" ++ keyword ++ "_" ++ toString len

/-- The keyword normalization applied before searching and before the cache
key is built (stditem.js line 315): `sanitizeInput(keyword).toLowerCase()`. -/
def normalizeKeyword (raw : String) : String := jsToLower (sanitizeInput raw)

/-- The empty-keyword ("show all") scan (stditem.js lines 406-430): walk the
collection in row order and keep the rows passing the display filter. -/
def emptyKeywordDivs (stdlist : List Item) : List ItemDiv :=
  stdlist.enum.filterMap fun p =>
    if displayOk p.2 then some (mkItemDiv p.1 p.2) else none

/-- The indexed fuzzy path (stditem.js lines 341-371): iterate the by-name
index in key-insertion order, fuzzy-match each key, and for matching keys
emit the bucket's rows that exist and pass the display filter. -/
def indexedDivs (byName : ByName) (stdlist : List Item) (keyword : String) : List ItemDiv :=
  (byName.filter fun e => matchesFuzzily e.1 keyword).flatMap fun e =>
    e.2.filterMap fun i =>
      match stdlist.get? i with
      | some item => if displayOk item then some (mkItemDiv i item) else none
      | none => none

/-- The fallback fuzzy path used when the index is unavailable (stditem.js
lines 372-405): scan the collection in row order, lowercase each non-empty
name, fuzzy-match it, and keep rows passing the display filter. -/
def fallbackDivs (stdlist : List Item) (keyword : String) : List ItemDiv :=
  stdlist.enum.filterMap fun p =>
    if decide (p.2.name ≠ "") && matchesFuzzily (jsToLower p.2.name) keyword && displayOk p.2
    then some (mkItemDiv p.1 p.2) else none

/-- Dispatch between the indexed and fallback fuzzy paths, according to
whether `indexedData` is available (stditem.js line 341). -/
def searchDivs (idx : Option ByName) (stdlist : List Item) (keyword : String) : List ItemDiv :=
  match idx with
  | some byName => indexedDivs byName stdlist keyword
  | none => fallbackDivs stdlist keyword

/-- The mutable state `getEquByKey` touches: the heap of live document
fragments (indexed by allocation order), the `searchCache` map from cache
key to cached fragment, and the contents of the `#equList` container. -/
structure St where
  frags : List (List ItemDiv)
  cache : List (String × Nat)
  equList : EquContent
deriving DecidableEq, Repr

/-- The "no data" message rendered when the collection is unavailable
(stditem.js line 309). -/
def noDataMsg : String := "没有可用的数据，请检查版本选择"

/-- Embedding of `getEquByKey` (stditem.js lines 306-450).
`stdlistOpt = none` models `Stdlist` being undefined or not an array.
The cache stores fragment ids; on a cache hit, `appendChild(cachedResult)`
moves the cached fragment's children into the container, leaving the cached
fragment empty (DOM `DocumentFragment` move semantics); on a miss the
computed fragment is rendered and a deep clone of it is cached. -/
def getEquByKey (stdlistOpt : Option (List Item)) (idx : Option ByName)
    (raw : String) (st : St) : St :=
  match stdlistOpt with
  | none => { st with equList := EquContent.msg noDataMsg }
  | some stdlist =>
    if stdlist.length = 0 then { st with equList := EquContent.msg noDataMsg }
    else
      let keyword := normalizeKeyword raw
      if keyword = "" then
        { frags := st.frags, cache := [],
          equList := EquContent.items (emptyKeywordDivs stdlist) }
      else
        let cacheKey := mkCacheKey keyword stdlist.length
        match jsMapGet st.cache cacheKey with
        | some fid =>
            { frags := st.frags.set fid [], cache := st.cache,
              equList := EquContent.items ((st.frags.get? fid).getD []) }
        | none =>
            let divs := searchDivs idx stdlist keyword
            { frags := st.frags ++ [divs],
              cache := cacheStore st.cache cacheKey st.frags.length,
              equList := EquContent.items divs }

/-- Repeatedly store key/fragment-id pairs into the cache, left to right. -/
def insertAll (m : List (String × Nat)) (kvs : List (String × Nat)) : List (String × Nat) :=
  kvs.foldl (fun acc kv => cacheStore acc kv.1 kv.2) m

/-- A one-item dataset used to exercise the model on concrete runs:
the item drops from monster 0 and has no NPC relation. -/
def demoItem : Item := { name := "Fire Sword", mon := "0", npc := "-1" }

/-- The initial page state: no live fragments, empty cache, empty list. -/
def demoSt : St := { frags := [], cache := [], equList := EquContent.items [] }

/-- One search for the keyword `fire` over the one-item dataset, with the
by-name index built as `initializeIndex` does. -/
def demoRun (st : St) : St :=
  getEquByKey (some [demoItem]) (some (buildByName [demoItem])) "fire" st

/-- Fifty distinct key/fragment-id pairs, inserted after a fifty-first
distinct key in the cache-eviction scenario. -/
def rest50 : List (String × Nat) := (List.range 50).map fun i => (toString (i + 1), i + 1)

theorem greedy_iff {α : Type} [DecidableEq α] :
    ∀ hs ns : List α, greedy hs ns = true ↔ ns.Sublist hs := by
  intro hs
  induction hs with
  | nil =>
    intro ns
    cases ns with
    | nil => simp [greedy]
    | cons n ns => simp [greedy]
  | cons h hs ih =>
    intro ns
    cases ns with
    | nil => simp [greedy, List.nil_sublist]
    | cons n ns =>
      by_cases hEq : h = n
      · subst hEq
        rw [greedy, if_pos rfl, ih ns, List.cons_sublist_cons]
      · rw [greedy, if_neg hEq, ih (n :: ns)]
        constructor
        · intro hsub
          exact hsub.cons h
        · intro hsub
          cases hsub with
          | cons _ h2 => exact h2
          | cons₂ _ h2 => exact absurd rfl hEq

theorem fuzzyLoop_eq_greedy :
    ∀ hs ns : List Char,
      fuzzyLoop hs ns = greedy (hs.map Char.toLower) (ns.map Char.toLower) := by
  intro hs
  induction hs with
  | nil =>
    intro ns
    cases ns with
    | nil => rfl
    | cons n ns => rfl
  | cons h hs ih =>
    intro ns
    cases ns with
    | nil => rfl
    | cons n ns =>
      rw [List.map_cons, List.map_cons, fuzzyLoop, greedy]
      by_cases hc : h.toLower = n.toLower
      · rw [if_pos hc, if_pos hc, ih ns]
      · rw [if_neg hc, if_neg hc, ih (n :: ns), List.map_cons]

/-- C1: `matchesFuzzily(haystack, needle)` returns true iff every character
of the needle appears in the haystack in order (gaps allowed), compared
case-insensitively character by character — i.e. iff the lowercased needle
is a sublist of the lowercased haystack; an empty needle always matches, an
empty haystack rejects every non-empty needle, and on the concrete inputs
`matchesFuzzily "Fire Sword" "fswd"` is true while
`matchesFuzzily "Fire Sword" "wfs"` is false. -/
theorem matchesFuzzily_correct :
    (∀ haystack needle : String,
        matchesFuzzily haystack needle = true
          ↔ (needle.data.map Char.toLower).Sublist (haystack.data.map Char.toLower))
    ∧ (∀ haystack : String, matchesFuzzily haystack "" = true)
    ∧ (∀ needle : String, needle ≠ "" → matchesFuzzily "" needle = false)
    ∧ matchesFuzzily "Fire Sword" "fswd" = true
    ∧ matchesFuzzily "Fire Sword" "wfs" = false := by
  refine ⟨?_, ?_, ?_, by decide, by decide⟩
  · intro haystack needle
    rcases hn : needle.data with _ | ⟨n, ns⟩
    · simp [matchesFuzzily, hn]
    · rcases hh : haystack.data with _ | ⟨h, hs⟩
      · simp [matchesFuzzily, hn, hh]
      · rw [matchesFuzzily, hn, hh]
        show fuzzyLoop (h :: hs) (n :: ns) = true ↔ _
        rw [fuzzyLoop_eq_greedy, greedy_iff]
  · intro haystack
    rw [matchesFuzzily]
  · intro needle hne
    rcases hn : needle.data with _ | ⟨n, ns⟩
    · exact absurd (by cases needle; simp_all) hne
    · rw [matchesFuzzily, hn]

/-- Witness for C1: the empty-haystack clause evaluated at needle `"x"`. -/
theorem matchesFuzzily_correct_witness : matchesFuzzily "" "x" = false :=
  matchesFuzzily_correct.2.2.1 "x" (by decide)

theorem escapeChar_no_specials (d : Char) :
    ∀ c ∈ (escapeChar d).data, c ≠ '<' ∧ c ≠ '>' ∧ c ≠ dquote ∧ c ≠ squote := by
  by_cases h1 : d = '<'
  · subst h1; decide
  by_cases h2 : d = '>'
  · subst h2; decide
  by_cases h3 : d = '&'
  · subst h3; decide
  by_cases h4 : d = dquote
  · subst h4; decide
  by_cases h5 : d = squote
  · subst h5; decide
  rw [escapeChar, if_neg h1, if_neg h2, if_neg h3, if_neg h4, if_neg h5]
  intro c hc
  have hc2 : c ∈ [d] := hc
  rcases List.mem_singleton.mp hc2 with rfl
  exact ⟨h1, h2, h4, h5⟩

theorem sanitizeChars_no_specials :
    ∀ l : List Char, ∀ c ∈ sanitizeChars l,
      c ≠ '<' ∧ c ≠ '>' ∧ c ≠ dquote ∧ c ≠ squote := by
  intro l
  induction l with
  | nil => intro c hc; cases hc
  | cons d rest ih =>
    intro c hc
    rw [sanitizeChars] at hc
    rcases List.mem_append.mp hc with h | h
    · exact escapeChar_no_specials d c h
    · exact ih c h

theorem sanitizeChars_id :
    ∀ l : List Char,
      (∀ c ∈ l, c ≠ '<' ∧ c ≠ '>' ∧ c ≠ '&' ∧ c ≠ dquote ∧ c ≠ squote) →
      sanitizeChars l = l := by
  intro l
  induction l with
  | nil => intro _; rfl
  | cons d rest ih =>
    intro h
    obtain ⟨h1, h2, h3, h4, h5⟩ := h d (List.mem_cons_self d rest)
    rw [sanitizeChars, escapeChar, if_neg h1, if_neg h2, if_neg h3, if_neg h4, if_neg h5,
      ih fun c hc => h c (List.mem_cons_of_mem d hc)]
    rfl

/-- C10: the output of `sanitizeInput` never contains a literal `<`, `>`,
double-quote or single-quote character, whatever the string input: every
occurrence of the five special characters is replaced by an HTML entity and
all other characters are copied unchanged, so none of the four delimiters
can survive into the output. -/
theorem sanitizeInput_no_html_delims :
    ∀ s : String, ∀ c ∈ (sanitizeInput s).data,
      c ≠ '<' ∧ c ≠ '>' ∧ c ≠ dquote ∧ c ≠ squote := by
  intro s c hc
  exact sanitizeChars_no_specials s.data c hc

/-- Witness for C10: the character `&` of `sanitizeInput "<" = "&lt;"`. -/
theorem sanitizeInput_no_html_delims_witness :
    ('&' ∈ (sanitizeInput "<").data)
    ∧ ('&' ≠ '<' ∧ '&' ≠ '>' ∧ '&' ≠ dquote ∧ '&' ≠ squote) :=
  ⟨by decide, sanitizeInput_no_html_delims "<" '&' (by decide)⟩

/-- C5, counterexample: the claim says the normalized keyword always equals
the lowercased input, but the code first HTML-escapes the keyword with
`sanitizeInput` (stditem.js line 315), so for the input `"&"` the
normalized keyword is `"&amp;"`, not `"&"`. -/
theorem keyword_normalization_counterexample :
    normalizeKeyword "&" ≠ jsToLower "&" := by decide

/-- C5, amended: the normalization applied to the keyword before matching
and before the cache key is built is HTML-escaping of the five characters
`<`, `>`, `&`, `"`, `'` (via `sanitizeInput`) followed by per-character
case-folding to lowercase; no trimming is performed, and whenever the
keyword contains none of those five characters the normalized keyword
equals the lowercased input. -/
theorem keyword_normalization_amended :
    (∀ raw : String, normalizeKeyword raw = jsToLower (sanitizeInput raw))
    ∧ ∀ raw : String,
        (∀ c ∈ raw.data, c ≠ '<' ∧ c ≠ '>' ∧ c ≠ '&' ∧ c ≠ dquote ∧ c ≠ squote) →
        normalizeKeyword raw = jsToLower raw := by
  constructor
  · intro raw
    rfl
  · intro raw h
    have hs : sanitizeInput raw = raw := by
      cases raw with
      | mk data =>
        show String.mk (sanitizeChars data) = String.mk data
        rw [sanitizeChars_id data h]
    rw [normalizeKeyword, hs]

/-- Witness for C5 amended: `"Fire Sword"` (spaces included, untrimmed)
normalizes to exactly its lowercased form. -/
theorem keyword_normalization_amended_witness :
    normalizeKeyword "Fire Sword" = jsToLower "Fire Sword" :=
  keyword_normalization_amended.2 "Fire Sword" (by decide)

/-- C2: relation resolution parses the refs string by comma and yields the
referenced target rows in left-to-right id order; `"-1"` yields the empty
sequence; the resolved rows are exactly the in-order parsed ids mapped
through (total, never-throwing) JS indexing, so empty segments, segments
that do not parse to an integer, and out-of-bounds ids are silently
skipped; concretely, resolving `"2,,5"` against a collection with more
than 5 rows yields exactly rows 2 and 5 in that order. -/
theorem resolveRefs_correct :
    (∀ (α : Type) (target : List α), resolveRefs "-1" target = [])
    ∧ (∀ (α : Type) (refs : String) (target : List α), refs ≠ "-1" →
        resolveRefs refs target = (refIds refs).filterMap (listGetInt target))
    ∧ (∀ (α : Type) (target : List α) (i : Int),
        (i < 0 ∨ target.length ≤ i.toNat) → listGetInt target i = none)
    ∧ (∀ (α : Type) (target : List α) (h : 5 < target.length),
        resolveRefs "2,,5" target
          = [target.get ⟨2, by omega⟩, target.get ⟨5, h⟩]) := by
  refine ⟨?_, ?_, ?_, ?_⟩
  · intro α target
    rw [resolveRefs, if_pos rfl]
  · intro α refs target hne
    rw [resolveRefs, if_neg hne, refIds, List.filterMap_filterMap]
    refine List.filterMap_congr ?_
    intro seg _
    by_cases hseg : seg = ""
    · simp [hseg]
    · rw [if_neg hseg, if_neg hseg]
      cases jsParseInt seg with
      | none => rfl
      | some id => rfl
  · intro α target i hi
    rcases hi with hi | hi
    · rw [listGetInt, if_neg (by omega)]
    · rcases le_or_lt 0 i with h0 | h0
      · rw [listGetInt, if_pos h0, List.get?_eq_none.mpr hi]
      · rw [listGetInt, if_neg (by omega)]
  · intro α target h
    have h2 : 2 < target.length := by omega
    rw [resolveRefs, if_neg (by decide)]
    rw [show jsSplitComma "2,,5" = ["2", "", "5"] from by decide]
    have e2 : (if ("2" : String) = "" then none
        else match jsParseInt "2" with
          | some id => listGetInt target id
          | none => none) = target.get? 2 := by
      rw [if_neg (by decide), show jsParseInt "2" = some 2 from by decide]
      show listGetInt target 2 = target.get? 2
      rw [listGetInt, if_pos (by decide)]
      rfl
    have e5 : (if ("5" : String) = "" then none
        else match jsParseInt "5" with
          | some id => listGetInt target id
          | none => none) = target.get? 5 := by
      rw [if_neg (by decide), show jsParseInt "5" = some 5 from by decide]
      show listGetInt target 5 = target.get? 5
      rw [listGetInt, if_pos (by decide)]
      rfl
    have e0 : (if ("" : String) = "" then none
        else match jsParseInt "" with
          | some id => listGetInt target id
          | none => none) = (none : Option α) := by
      rw [if_pos rfl]
    simp only [List.filterMap_cons, e2, e5, e0, List.filterMap_nil,
      List.get?_eq_get h2, List.get?_eq_get h]
    simp

/-- Witness for C2: the `"2,,5"` scenario on a concrete 6-row collection. -/
theorem resolveRefs_correct_witness :
    resolveRefs "2,,5" [10, 20, 30, 40, 50, 60]
      = [([10, 20, 30, 40, 50, 60] : List Nat).get ⟨2, by decide⟩,
         ([10, 20, 30, 40, 50, 60] : List Nat).get ⟨5, by decide⟩] :=
  resolveRefs_correct.2.2.2 Nat [10, 20, 30, 40, 50, 60] (by decide)

theorem jsMapGet_eq_none_of_not_mem (m : List (String × Nat)) (k : String)
    (h : k ∉ m.map Prod.fst) : jsMapGet m k = none := by
  induction m with
  | nil => rfl
  | cons e rest ih =>
    rw [List.map_cons, List.mem_cons] at h
    push_neg at h
    obtain ⟨e1, e2⟩ := e
    rw [jsMapGet, if_neg (fun he => h.1 he.symm)]
    exact ih h.2

theorem jsMapGet_of_nodup_mem (m : List (String × Nat)) (k : String) (v : Nat)
    (hnd : (m.map Prod.fst).Nodup) (hm : (k, v) ∈ m) : jsMapGet m k = some v := by
  induction m with
  | nil => cases hm
  | cons e rest ih =>
    rw [List.map_cons, List.nodup_cons] at hnd
    rcases List.mem_cons.mp hm with rfl | hm2
    · rw [jsMapGet, if_pos rfl]
    · obtain ⟨e1, e2⟩ := e
      by_cases he : e1 = k
      · subst he
        exact absurd (List.mem_map_of_mem Prod.fst hm2) hnd.1
      · rw [jsMapGet, if_neg he]
        exact ih hnd.2 hm2

theorem jsMapSet_of_not_mem (m : List (String × Nat)) (k : String) (v : Nat)
    (h : k ∉ m.map Prod.fst) : jsMapSet m k v = m ++ [(k, v)] := by
  induction m with
  | nil => rfl
  | cons e rest ih =>
    rw [List.map_cons, List.mem_cons] at h
    push_neg at h
    obtain ⟨e1, e2⟩ := e
    rw [jsMapSet, if_neg (fun he => h.1 he.symm)]
    rw [List.cons_append]
    rw [ih h.2]

theorem jsMapGet_set_self (m : List (String × Nat)) (k : String) (v : Nat) :
    jsMapGet (jsMapSet m k v) k = some v := by
  induction m with
  | nil => rw [jsMapSet, jsMapGet, if_pos rfl]
  | cons e rest ih =>
    obtain ⟨e1, e2⟩ := e
    by_cases he : e1 = k
    · rw [jsMapSet, if_pos he, jsMapGet, if_pos he]
    · rw [jsMapSet, if_neg he, jsMapGet, if_neg he]
      exact ih

theorem insertAll_eq_append :
    ∀ (kvs m : List (String × Nat)),
      ((m ++ kvs).map Prod.fst).Nodup → m.length + kvs.length ≤ 50 →
      insertAll m kvs = m ++ kvs := by
  intro kvs
  induction kvs with
  | nil =>
    intro m _ _
    rw [insertAll, List.foldl_nil, List.append_nil]
  | cons kv kvs ih =>
    intro m hnd hlen
    have hstep : cacheStore m kv.1 kv.2 = m ++ [kv] := by
      have hlt : ¬ 50 ≤ m.length := by
        rw [List.length_cons] at hlen
        omega
      have hk : kv.1 ∉ m.map Prod.fst := by
        rw [List.map_append, List.nodup_append] at hnd
        intro hmem
        exact hnd.2.2 hmem (by simp)
      rw [cacheStore, if_neg hlt, jsMapSet_of_not_mem m kv.1 kv.2 hk]
    rw [insertAll, List.foldl_cons]
    have := ih (m ++ [kv]) (by rwa [List.append_assoc, List.singleton_append])
      (by rw [List.length_append, List.length_singleton]; rw [List.length_cons] at hlen; omega)
    rw [insertAll] at this
    rw [hstep, this, List.append_assoc, List.singleton_append]

/-- C3: the search cache evicts in strict FIFO order with capacity 50:
when a result is stored while the cache holds 50 or more entries, exactly
the single oldest-inserted entry is removed before the new entry is
appended; consequently, after inserting 51 results under pairwise-distinct
keys into an initially empty cache, the first-inserted key is no longer
retrievable while each of the other 50 keys still yields its stored value. -/
theorem cache_fifo_correct :
    (∀ (m : List (String × Nat)) (k : String) (v : Nat),
        50 ≤ m.length → k ∉ m.tail.map Prod.fst →
        cacheStore m k v = m.tail ++ [(k, v)])
    ∧ (∀ (kv0 : String × Nat) (rest : List (String × Nat)),
        rest.length = 50 → ((kv0 :: rest).map Prod.fst).Nodup →
        jsMapGet (insertAll [] (kv0 :: rest)) kv0.1 = none
        ∧ ∀ kv ∈ rest, jsMapGet (insertAll [] (kv0 :: rest)) kv.1 = some kv.2) := by
  constructor
  · intro m k v hlen hk
    rw [cacheStore, if_pos hlen, jsMapSet_of_not_mem m.tail k v hk]
  · intro kv0 rest hlen hnd
    have hndCons : kv0.1 ∉ rest.map Prod.fst ∧ (rest.map Prod.fst).Nodup := by
      rw [List.map_cons, List.nodup_cons] at hnd
      exact hnd
    have hrne : rest ≠ [] := by
      intro h
      rw [h] at hlen
      cases hlen
    have hre : rest.dropLast ++ [rest.getLast hrne] = rest :=
      List.dropLast_append_getLast hrne
    have hrd : rest.dropLast.length = 49 := by
      rw [List.length_dropLast, hlen]
    have hndFront : ((kv0 :: rest.dropLast).map Prod.fst).Nodup :=
      hnd.sublist (((List.dropLast_sublist rest).cons₂ kv0).map Prod.fst)
    have hkey : (rest.getLast hrne).1 ∉ rest.dropLast.map Prod.fst := by
      have hndRest := hndCons.2
      rw [← hre, List.map_append, List.nodup_append] at hndRest
      intro hmem
      exact hndRest.2.2 hmem (by simp)
    have hmain : insertAll [] (kv0 :: rest) = rest := by
      have h1 : insertAll [] (kv0 :: rest)
          = cacheStore (insertAll [] (kv0 :: rest.dropLast))
              (rest.getLast hrne).1 (rest.getLast hrne).2 := by
        conv_lhs => rw [← hre]
        rw [insertAll, ← List.cons_append, List.foldl_append, List.foldl_cons, List.foldl_nil]
        rw [insertAll]
      have h2 : insertAll [] (kv0 :: rest.dropLast) = kv0 :: rest.dropLast := by
        have h3 := insertAll_eq_append (kv0 :: rest.dropLast) []
          (by rwa [List.nil_append]) (by rw [List.length_nil, List.length_cons, hrd])
        rwa [List.nil_append] at h3
      have hfull : 50 ≤ (kv0 :: rest.dropLast).length := by
        rw [List.length_cons, hrd]
      rw [h1, h2, cacheStore, if_pos hfull]
      show jsMapSet rest.dropLast (rest.getLast hrne).1 (rest.getLast hrne).2 = rest
      rw [jsMapSet_of_not_mem rest.dropLast (rest.getLast hrne).1 (rest.getLast hrne).2 hkey]
      rw [show ((rest.getLast hrne).1, (rest.getLast hrne).2) = rest.getLast hrne from rfl]
      exact hre
    refine ⟨?_, ?_⟩
    · rw [hmain]
      exact jsMapGet_eq_none_of_not_mem rest kv0.1 hndCons.1
    · intro kv hm
      rw [hmain]
      exact jsMapGet_of_nodup_mem rest kv.1 kv.2 hndCons.2
        (by rw [show (kv.1, kv.2) = kv from rfl]; exact hm)

/-- Witness for C3: 51 concrete distinct keys `"0" .. "50"`. -/
theorem cache_fifo_correct_witness :
    jsMapGet (insertAll [] (("0", 0) :: rest50)) "0" = none
    ∧ jsMapGet (insertAll [] (("0", 0) :: rest50)) "50" = some 50 :=
  ⟨(cache_fifo_correct.2 ("0", 0) rest50 (by decide) (by decide)).1,
   (cache_fifo_correct.2 ("0", 0) rest50 (by decide) (by decide)).2 ("50", 50) (by decide)⟩

theorem filterMap_guard_eq_filter_map {α β : Type} (l : List α) (c : α → Bool) (g : α → β) :
    (l.filterMap fun a => if c a then some (g a) else none) = (l.filter c).map g := by
  induction l with
  | nil => rfl
  | cons a rest ih =>
    by_cases h : c a
    · rw [List.filterMap_cons, List.filter_cons, if_pos h, if_pos h, List.map_cons, ih]
    · rw [List.filterMap_cons, List.filter_cons, if_neg h]
      simp only [h, Bool.false_eq_true, if_false]
      exact ih

/-- C9: when the backing collection is missing / not an array (`none`) or
empty, `getEquByKey` does not throw (the model is a total function), leaves
the cache and fragment heap untouched (no matching work), and renders an
explicit "no data" message that is distinct from every ordinary result
list, including the empty (zero-match) one — for every keyword. -/
theorem no_data_result (d : Option (List Item)) (idx : Option ByName)
    (raw : String) (st : St) (hd : d = none ∨ d = some []) :
    getEquByKey d idx raw st = { st with equList := EquContent.msg noDataMsg }
    ∧ ∀ divs : List ItemDiv, EquContent.msg noDataMsg ≠ EquContent.items divs := by
  refine ⟨?_, fun divs h => by cases h⟩
  rcases hd with rfl | rfl
  · rfl
  · rfl

/-- C6: searching with an empty keyword renders exactly the rows of the
collection that pass the display filter (monster refs or NPC refs present),
in the same relative order as the original collection: the show-all scan
equals filtering the enumerated collection and rendering each survivor. -/
theorem empty_keyword_search (stdlist : List Item) (idx : Option ByName) (st : St)
    (hne : stdlist ≠ []) :
    (getEquByKey (some stdlist) idx "" st).equList
        = EquContent.items (emptyKeywordDivs stdlist)
    ∧ emptyKeywordDivs stdlist
        = (stdlist.enum.filter fun p => displayOk p.2).map fun p => mkItemDiv p.1 p.2 := by
  have hlen : ¬ stdlist.length = 0 := by
    rw [List.length_eq_zero]
    exact hne
  have hkw : normalizeKeyword "" = "" := by decide
  constructor
  · simp [getEquByKey, hlen, hkw]
  · exact filterMap_guard_eq_filter_map stdlist.enum (fun p => displayOk p.2)
      (fun p => mkItemDiv p.1 p.2)

/-- C8: every empty-keyword search on a nonempty collection fully clears
the cache (so the cache is empty immediately afterwards and no entry is
stored for the empty keyword), and its rendered output never depends on the
incoming state — no cache lookup is consulted, so a "show all" query never
returns a cached result from a prior dataset. -/
theorem empty_keyword_bypasses_cache (stdlist : List Item) (idx : Option ByName) (st : St)
    (hne : stdlist ≠ []) :
    (getEquByKey (some stdlist) idx "" st).cache = []
    ∧ ∀ st2 : St, (getEquByKey (some stdlist) idx "" st2).equList
        = (getEquByKey (some stdlist) idx "" st).equList := by
  have hlen : ¬ stdlist.length = 0 := by
    rw [List.length_eq_zero]
    exact hne
  have hkw : normalizeKeyword "" = "" := by decide
  constructor
  · simp [getEquByKey, hlen, hkw]
  · intro st2
    simp [getEquByKey, hlen, hkw]

/-- C7: for every non-empty normalized keyword whose cache key is not yet
cached, running the same search twice without any dataset change yields
identical rendered results: the first run computes the result set (by
scanning the index or the fallback path) and caches a clone of it, the
second run is served from the cache and renders exactly the same rows in
the same order. -/
theorem search_twice_same_results (stdlist : List Item) (idx : Option ByName)
    (raw : String) (st : St) (hne : stdlist ≠ [])
    (hkw : normalizeKeyword raw ≠ "")
    (hmiss : jsMapGet st.cache (mkCacheKey (normalizeKeyword raw) stdlist.length) = none) :
    (getEquByKey (some stdlist) idx raw (getEquByKey (some stdlist) idx raw st)).equList
      = (getEquByKey (some stdlist) idx raw st).equList := by
  have hlen : ¬ stdlist.length = 0 := by
    rw [List.length_eq_zero]
    exact hne
  have hst1 : getEquByKey (some stdlist) idx raw st
      = { frags := st.frags ++ [searchDivs idx stdlist (normalizeKeyword raw)],
          cache := cacheStore st.cache
            (mkCacheKey (normalizeKeyword raw) stdlist.length) st.frags.length,
          equList := EquContent.items (searchDivs idx stdlist (normalizeKeyword raw)) } := by
    simp [getEquByKey, hlen, hkw, hmiss]
  have hhit : jsMapGet
      (cacheStore st.cache (mkCacheKey (normalizeKeyword raw) stdlist.length) st.frags.length)
      (mkCacheKey (normalizeKeyword raw) stdlist.length) = some st.frags.length := by
    rw [cacheStore]
    exact jsMapGet_set_self _ _ _
  rw [hst1]
  simp [getEquByKey, hlen, hkw, hhit, List.get?_concat_length]

/-- C4 (code bug): cached values are NOT effectively defensively copied.
A clone is stored on a miss, but a cache hit renders the cached fragment
itself via `appendChild`, which moves its children out and empties the
cached entry: on the concrete one-item dataset, the first search for
`fire` renders the item, the second (first cache hit) still renders it
from the clone, but the third renders nothing — a later lookup of the same
key does not yield the originally stored result set, contradicting the
claim. -/
theorem cached_fragment_corrupted_by_rendering :
    (demoRun demoSt).equList = EquContent.items [mkItemDiv 0 demoItem]
    ∧ (demoRun (demoRun demoSt)).equList = EquContent.items [mkItemDiv 0 demoItem]
    ∧ (demoRun (demoRun (demoRun demoSt))).equList = EquContent.items [] :=
  ⟨by decide, by decide, by decide⟩

/-- Witness for C6: the empty-keyword search on the one-item dataset. -/
theorem empty_keyword_search_witness :
    (getEquByKey (some [demoItem]) none "" demoSt).equList
        = EquContent.items (emptyKeywordDivs [demoItem])
    ∧ emptyKeywordDivs [demoItem]
        = (([demoItem] : List Item).enum.filter fun p => displayOk p.2).map
            fun p => mkItemDiv p.1 p.2 :=
  empty_keyword_search [demoItem] none demoSt (by decide)

/-- Witness for C8: the empty-keyword search on the one-item dataset. -/
theorem empty_keyword_bypasses_cache_witness :
    (getEquByKey (some [demoItem]) none "" demoSt).cache = []
    ∧ ∀ st2 : St, (getEquByKey (some [demoItem]) none "" st2).equList
        = (getEquByKey (some [demoItem]) none "" demoSt).equList :=
  empty_keyword_bypasses_cache [demoItem] none demoSt (by decide)

/-- Witness for C9: searching with keyword `x` and no dataset loaded. -/
theorem no_data_result_witness :
    getEquByKey none none "x" demoSt = { demoSt with equList := EquContent.msg noDataMsg }
    ∧ ∀ divs : List ItemDiv, EquContent.msg noDataMsg ≠ EquContent.items divs :=
  no_data_result none none "x" demoSt (Or.inl rfl)

/-- Witness for C7: searching `fire` twice on the one-item dataset. -/
theorem search_twice_same_results_witness :
    (getEquByKey (some [demoItem]) (some (buildByName [demoItem])) "fire"
        (getEquByKey (some [demoItem]) (some (buildByName [demoItem])) "fire" demoSt)).equList
      = (getEquByKey (some [demoItem]) (some (buildByName [demoItem])) "fire" demoSt).equList :=
  search_twice_same_results [demoItem] (some (buildByName [demoItem])) "fire" demoSt
    (by decide) (by decide) (by decide)
